import Mathlib

/-!
Formal model of `HARPIA_Analysis_Functions.py` — analysis helpers for
transient-absorption (TA) spectroscopy data.

Machine floating-point values are modelled as exact rationals extended with the
IEEE special values that the code can actually observe (`FV`: finite, `+inf`,
`-inf`, `NaN`); numeric literals such as `-2.28` are carried exactly over `ℚ`.
Calls into numpy that raise an exception are modelled by `Option`, with `none`
exactly at the raising call sites (`argmin` of an empty array, scalar indexing
out of bounds, `max` of an empty array, `np.percentile` of an empty array,
ragged rows in `np.genfromtxt`, slicing a 1-D or empty parse result as 2-D).
Places where numpy only warns and produces NaN (mean of an empty slice,
division by zero, unparseable cells in `np.genfromtxt`) are modelled as total
functions producing `FV.nan` / infinities.
-/

/-- Extended value for a numpy float64: a finite rational, an infinity, or NaN. -/
inductive FV where
  | fin : ℚ → FV
  | pinf : FV
  | ninf : FV
  | nan : FV
deriving DecidableEq, Repr

/-- Is the value NaN? -/
def fvIsNan : FV → Bool
  | .nan => true
  | _ => false

/-- The finite payload, when there is one. -/
def fvToQ : FV → Option ℚ
  | .fin q => some q
  | _ => none

/-- IEEE negation. -/
def fvNeg : FV → FV
  | .fin a => .fin (-a)
  | .pinf => .ninf
  | .ninf => .pinf
  | .nan => .nan

/-- IEEE addition (`inf + -inf = NaN`, NaN propagates). -/
def fvAdd : FV → FV → FV
  | .fin a, .fin b => .fin (a + b)
  | .fin _, .pinf => .pinf
  | .fin _, .ninf => .ninf
  | .pinf, .fin _ => .pinf
  | .ninf, .fin _ => .ninf
  | .pinf, .pinf => .pinf
  | .ninf, .ninf => .ninf
  | .pinf, .ninf => .nan
  | .ninf, .pinf => .nan
  | _, _ => .nan

/-- IEEE subtraction. -/
def fvSub (a b : FV) : FV := fvAdd a (fvNeg b)

/-- IEEE multiplication (`0 * inf = NaN`, NaN propagates). -/
def fvMul : FV → FV → FV
  | .fin a, .fin b => .fin (a * b)
  | .fin a, .pinf => if 0 < a then .pinf else if a < 0 then .ninf else .nan
  | .fin a, .ninf => if 0 < a then .ninf else if a < 0 then .pinf else .nan
  | .pinf, .fin b => if 0 < b then .pinf else if b < 0 then .ninf else .nan
  | .ninf, .fin b => if 0 < b then .ninf else if b < 0 then .pinf else .nan
  | .pinf, .pinf => .pinf
  | .ninf, .ninf => .pinf
  | .pinf, .ninf => .ninf
  | .ninf, .pinf => .ninf
  | _, _ => .nan

/-- IEEE division as numpy performs it on arrays: division by zero yields a
signed infinity (or NaN for `0/0`) together with a runtime warning, never an
exception.  `ℚ` has no signed zero, so `finite / inf` is plain `0`. -/
def fvDiv : FV → FV → FV
  | .fin a, .fin b =>
      if b ≠ 0 then .fin (a / b)
      else if 0 < a then .pinf else if a < 0 then .ninf else .nan
  | .fin _, .pinf => .fin 0
  | .fin _, .ninf => .fin 0
  | .pinf, .fin b => if b < 0 then .ninf else .pinf
  | .ninf, .fin b => if b < 0 then .pinf else .ninf
  | _, _ => .nan

/-- numpy `maximum` of two values: NaN propagates. -/
def fvMax : FV → FV → FV
  | .nan, _ => .nan
  | _, .nan => .nan
  | .pinf, _ => .pinf
  | _, .pinf => .pinf
  | .fin a, .fin b => .fin (max a b)
  | .fin a, .ninf => .fin a
  | .ninf, .fin b => .fin b
  | .ninf, .ninf => .ninf

/-- Model of `ndarray.max()`: a left `maximum`-reduction over the elements.  numpy
raises on an empty array; every use below is guarded by an emptiness check, so
the `[]` value here is irrelevant. -/
def fvMaxL : List FV → FV
  | [] => .nan
  | x :: xs => xs.foldl fvMax x

/-- Non-strict order used by `argmin` once both sides are known non-NaN. -/
def fvLeB : FV → FV → Bool
  | .nan, _ => false
  | _, .nan => false
  | .ninf, _ => true
  | .fin _, .pinf => true
  | .fin a, .fin b => decide (a ≤ b)
  | .fin _, .ninf => false
  | .pinf, .pinf => true
  | .pinf, _ => false

/-- Model of `ndarray.mean()` over a 1-D slice of finite cells: the arithmetic mean,
except that numpy's mean of an *empty* slice is NaN (with a runtime warning,
not an exception). -/
def meanFV (l : List ℚ) : FV :=
  if l = [] then FV.nan else FV.fin (l.sum / l.length)

/-- Model of `np.argmin` over a 1-D array of finite values: index of the first minimal
element (ties resolve to the numerically first index).  numpy raises on an
empty array; callers guard for that, so the `[]` value here is irrelevant. -/
def argminQ : List ℚ → ℕ
  | [] => 0
  | [_] => 0
  | x :: y :: ys =>
    if x ≤ (y :: ys).getD (argminQ (y :: ys)) 0 then 0 else argminQ (y :: ys) + 1

/-- Nearest-match resolution `np.argmin(np.abs(axis - x))`, the idiom used at
lines 34 and 36 of `plot_spectrum` and line 66 of `plot_bleach`. -/
def nearestIdx (axis : List ℚ) (x : ℚ) : ℕ :=
  argminQ (axis.map (fun a => |a - x|))

/-- Model of `np.argmin` over a 1-D float array including special values: the index of
the first NaN when one is present, otherwise the index of the first minimal
element.  numpy raises on an empty array; callers guard for that. -/
def argminFV : List FV → ℕ
  | [] => 0
  | [_] => 0
  | x :: y :: ys =>
    if fvIsNan x then 0
    else if fvIsNan ((y :: ys).getD (argminFV (y :: ys)) FV.nan) then argminFV (y :: ys) + 1
    else if fvLeB x ((y :: ys).getD (argminFV (y :: ys)) FV.nan) then 0
    else argminFV (y :: ys) + 1

/-- Maximum of a nonempty list of rationals (helper for reasoning about
`fvMaxL` on all-finite signals). -/
def qMaxL : List ℚ → ℚ
  | [] => 0
  | x :: xs => xs.foldl max x

/-- A loaded TA grid as consumed by `plot_bleach`: the three arrays returned by
`load_TA`, with all cells finite (the synthetic inputs of the claims). -/
structure TAData where
  wavelengths : List ℚ
  timepoints : List ℚ
  intensities : List (List ℚ)

/-- Line 67: `signal = intensities[:,wls[0]:wls[1]].mean(axis=1)` — the per-row
arithmetic mean over the closed-open column window `[lo, hi)`.  An empty window
(`hi ≤ lo`) gives NaN rows, as numpy's empty-slice mean does. -/
def windowSignal (d : TAData) (lo hi : ℕ) : List FV :=
  d.intensities.map (fun row => meanFV ((row.drop lo).take (hi - lo)))

/-- Lines 69-72: the unit transform.  `mOD = False`: `-2.28*signal + constant`;
`mOD = True`: `signal - constant` (the asymmetry is in the source). -/
def bleachTransform (mOD : Bool) (constant : ℚ) (signal : List FV) : List FV :=
  if !mOD then signal.map (fun v => fvAdd (fvMul (FV.fin (-2.28)) v) (FV.fin constant))
  else signal.map (fun v => fvSub v (FV.fin constant))

/-- Line 77: `signal = signal/signal.max()`. -/
def normaliseStep (s : List FV) : List FV :=
  s.map (fun v => fvDiv v (fvMaxL s))

/-- Line 66, first requested wavelength resolved to a column index.  The model
covers calls passing at least two wavelengths (Python would raise an
`IndexError` on `wls[1]` otherwise; no claim exercises that). -/
def bleachLo (d : TAData) (wls : List ℚ) : ℕ :=
  (wls.map (nearestIdx d.wavelengths)).getD 0 0

/-- Line 66, second requested wavelength resolved to a column index. -/
def bleachHi (d : TAData) (wls : List ℚ) : ℕ :=
  (wls.map (nearestIdx d.wavelengths)).getD 1 0

/-- The pre-transform signal of `plot_bleach` (line 67). -/
def bleachRaw (d : TAData) (wls : List ℚ) : List FV :=
  windowSignal d (bleachLo d wls) (bleachHi d wls)

/-- Line 68: `signal_max = signal.argmin()`, computed on the *pre-transform*
signal. -/
def bleachIdx (d : TAData) (wls : List ℚ) : ℕ :=
  argminFV (bleachRaw d wls)

/-- The signal after the unit transform and the optional `from_max` truncation
(lines 69-75). -/
def bleachPost (d : TAData) (wls : List ℚ) (from_max mOD : Bool) (c : ℚ) : List FV :=
  if from_max then (bleachTransform mOD c (bleachRaw d wls)).drop (bleachIdx d wls)
  else bleachTransform mOD c (bleachRaw d wls)

/-- Line 74: `timepoints = timepoints[signal_max:] - timepoints[signal_max]`
when `from_max`, else the timepoints unchanged. -/
def bleachTimes (d : TAData) (wls : List ℚ) (from_max : Bool) : List ℚ :=
  if from_max then
    (d.timepoints.drop (bleachIdx d wls)).map (fun t => t - d.timepoints.getD (bleachIdx d wls) 0)
  else d.timepoints

/-- Model of `plot_bleach` (lines 65-86), minus the plotting side effects.  `none`
models the numpy calls that raise: `argmin` over an empty wavelength axis or
empty signal, the scalar index `timepoints[signal_max]` out of bounds, and
`signal.max()` over an empty array.  Returns the pair that line 86 packs into
`np.array([timepoints, signal])`. -/
def plot_bleach (d : TAData) (wls : List ℚ) (normalise mOD from_max : Bool) (c : ℚ) :
    Option (List ℚ × List FV) :=
  if d.wavelengths = [] then none
  else if bleachRaw d wls = [] then none
  else if from_max = true ∧ d.timepoints.length ≤ bleachIdx d wls then none
  else if normalise = true ∧ bleachPost d wls from_max mOD c = [] then none
  else some (bleachTimes d wls from_max,
             if normalise = true then normaliseStep (bleachPost d wls from_max mOD c)
             else bleachPost d wls from_max mOD c)

/-- Model of `load_TA` (lines 16-20) over `np.genfromtxt(fname, skip_header=2)`.  The
input is the list of the file's non-blank lines (genfromtxt drops blank lines),
each line a list of cells; a cell that is not a parseable number is `FV.nan`,
which is what genfromtxt stores for it (it does not raise).  `none` models the
raising outcomes: ragged data rows (genfromtxt's column-consistency error), and
fewer than two data rows, for which genfromtxt yields an empty or 1-D array and
the 2-D slice `data[0,1:]` raises an `IndexError`. -/
def load_TA (file : List (List FV)) : Option (List FV × List FV × List (List FV)) :=
  match file.drop 2 with
  | [] => none
  | [_] => none
  | r0 :: rest =>
    if (r0 :: rest).all (fun r => r.length == r0.length) then
      some (r0.drop 1, rest.map (fun r => r.getD 0 FV.nan), rest.map (fun r => r.drop 1))
    else none

/-- Numeric value of a nonempty digit string. -/
def parseNatDigits (ds : List Char) : ℕ :=
  ds.foldl (fun n c => 10 * n + (c.toNat - 48)) 0

/-- Match of the tail `\d+\.\d+e[+-]?\d+` of the pump regex (line 99) at the
head of `s`, returning `float(...)` of the matched text, exactly over `ℚ`.
Every `\d+`-boundary in the pattern is a non-digit, so greedy matching is
maximal munch. -/
def matchPumpTail (s : List Char) : Option ℚ :=
  let d1 := s.takeWhile Char.isDigit
  let r1 := s.dropWhile Char.isDigit
  if d1 = [] then none
  else
    match r1 with
    | '.' :: r2 =>
      let d2 := r2.takeWhile Char.isDigit
      let r3 := r2.dropWhile Char.isDigit
      if d2 = [] then none
      else
        match r3 with
        | 'e' :: r4 =>
          let isNeg : Bool := match r4 with | '-' :: _ => true | _ => false
          let r5 : List Char := match r4 with | '-' :: t => t | '+' :: t => t | t => t
          let d3 := r5.takeWhile Char.isDigit
          if d3 = [] then none
          else
            let mant : ℚ := (parseNatDigits d1 : ℚ) + (parseNatDigits d2 : ℚ) / 10 ^ d2.length
            some (if isNeg then mant / 10 ^ parseNatDigits d3 else mant * 10 ^ parseNatDigits d3)
        | _ => none
    | _ => none

/-- Model of `re.search(r'Pump=(\d+\.\d+e[+-]?\d+)', line)` followed by `float` of group
1: the leftmost position where the whole pattern matches. -/
def searchPump : List Char → Option ℚ
  | [] => none
  | c :: rest =>
    if c = 'P' then
      match rest with
      | 'u' :: 'm' :: 'p' :: '=' :: t =>
        match matchPumpTail t with
        | some q => some q
        | none => searchPump rest
      | _ => searchPump rest
    else searchPump rest

/-- Lines 96-103: the pump values collected in file order, silently skipping
non-matching lines. -/
def pumpValues (lines : List (List Char)) : List ℚ :=
  lines.filterMap searchPump

/-- Line 111: `((pump_values.mean()-value) / pump_values.mean()) * 100` for
each extracted value, in order.  The mean of an empty array is NaN, so for an
empty input this is the empty list (the comprehension iterates zero times). -/
def pumpDeviations (vs : List ℚ) : List FV :=
  vs.map (fun v => fvMul (fvDiv (fvSub (meanFV vs) (FV.fin v)) (meanFV vs)) (FV.fin 100))

/-- Insertion into a sorted list (helper for the percentile sort). -/
def insertSorted (x : ℚ) : List ℚ → List ℚ
  | [] => [x]
  | y :: ys => if x ≤ y then x :: y :: ys else y :: insertSorted x ys

/-- Sort ascending. -/
def sortQ (l : List ℚ) : List ℚ :=
  l.foldr insertSorted []

/-- Model of `np.percentile(l, q)` with the default linear-interpolation method:
virtual index `h = (n-1)·q/100` into the sorted data, interpolating between
`s[⌊h⌋]` and the next element.  numpy raises an `IndexError` on an empty
array, modelled by `none`. -/
def npPercentile (l : List ℚ) (q : ℚ) : Option ℚ :=
  if l = [] then none
  else
    let s := sortQ l
    let n := s.length
    let h : ℚ := (n - 1 : ℚ) * q / 100
    let i : ℕ := (⌊h⌋).toNat
    let lo := s.getD i 0
    let hi := s.getD (min (i + 1) (n - 1)) 0
    some (lo + (h - (i : ℚ)) * (hi - lo))

/-- Model of `np.percentile` over float data: raises on an empty array, propagates NaN
otherwise.  Infinite entries cannot arise from `extract_pump_values`: the
regex matches only unsigned values, so a zero mean forces all values (and then
all deviations) to be NaN, never infinite. -/
def npPercentileFV (l : List FV) (q : ℚ) : Option FV :=
  if l = [] then none
  else if l.any fvIsNan then some FV.nan
  else
    match npPercentile (l.filterMap fvToQ) q with
    | some r => some (FV.fin r)
    | none => some FV.nan

/-- Model of `extract_pump_values` (lines 88-119), minus the plotting side effects:
the extracted values, their percentage deviations, and the 95th and 5th
percentiles of the deviations.  `none` models the `IndexError` that
`np.percentile` raises on an empty deviation list. -/
def extract_pump_values (lines : List (List Char)) :
    Option (List ℚ × List FV × FV × FV) :=
  match npPercentileFV (pumpDeviations (pumpValues lines)) 95,
        npPercentileFV (pumpDeviations (pumpValues lines)) 5 with
  | some p95, some p5 => some (pumpValues lines, pumpDeviations (pumpValues lines), p95, p5)
  | _, _ => none

/-- The spec's worked scenario grid: wavelengths `[500,600,700]`, timepoints
`[0,1,2]`, intensities `[[1,2,3],[4,5,6],[7,8,9]]`. -/
def exGrid : TAData :=
  ⟨[500, 600, 700], [0, 1, 2], [[1, 2, 3], [4, 5, 6], [7, 8, 9]]⟩

/-- A two-column grid: requesting the full axis `[500,600]` resolves to column
indices `[0,1]`, an exclusive window that drops the last column. -/
def cexGrid2 : TAData :=
  ⟨[500, 600], [0], [[1, 3]]⟩

/-- A grid whose bleach signal is negative after the `mOD = True` transform
with `constant = 5`. -/
def cexGrid5 : TAData :=
  ⟨[500, 600], [0, 1], [[1, 9], [2, 9]]⟩

/-- A four-line TA file whose fourth line starts with a non-numeric cell
(parsed by genfromtxt as NaN); both data rows have two columns. -/
def cexFile7 : List (List FV) :=
  [[FV.fin 0], [FV.fin 0], [FV.fin 0, FV.fin 500], [FV.nan, FV.fin 1]]

/-! ### General helper lemmas -/

theorem getD_map {α β : Type} (f : α → β) :
    ∀ (l : List α) (j : ℕ), j < l.length → ∀ (d : α) (d' : β),
      (l.map f).getD j d' = f (l.getD j d)
  | [], j, hj, _, _ => absurd hj (by simp)
  | a :: l, 0, _, d, d' => rfl
  | a :: l, j + 1, hj, d, d' => by
    simp only [List.map_cons, List.getD_cons_succ]
    exact getD_map f l j (by simpa using hj) d d'

theorem getD_drop_head {α : Type} (d : α) :
    ∀ (l : List α) (i : ℕ), (l.drop i).getD 0 d = l.getD i d
  | _, 0 => by simp
  | [], _ + 1 => by simp
  | _ :: l, i + 1 => by
    simp only [List.drop_succ_cons, List.getD_cons_succ]
    exact getD_drop_head d l i

theorem exists_getD_of_mem {α : Type} (d : α) :
    ∀ (l : List α) (a : α), a ∈ l → ∃ k, k < l.length ∧ l.getD k d = a
  | b :: l, a, h => by
    rcases List.mem_cons.mp h with h | h
    · exact ⟨0, by simp, by simp [h.symm]⟩
    · obtain ⟨k, hk, hget⟩ := exists_getD_of_mem d l a h
      exact ⟨k + 1, by simpa using hk, by simpa using hget⟩
  | [], a, h => absurd h (List.not_mem_nil a)

theorem argminQ_lt_length : ∀ (l : List ℚ), l ≠ [] → argminQ l < l.length
  | [], h => absurd rfl h
  | [_], _ => by simp [argminQ]
  | x :: y :: ys, _ => by
    have ih := argminQ_lt_length (y :: ys) (by simp)
    simp only [argminQ]
    split
    · simp
    · simp only [List.length_cons] at ih ⊢
      omega

theorem argminQ_cons_pos (x y : ℚ) (ys : List ℚ)
    (hx : x ≤ (y :: ys).getD (argminQ (y :: ys)) 0) :
    argminQ (x :: y :: ys) = 0 := by
  simp only [argminQ]
  rw [if_pos hx]

theorem argminQ_cons_neg (x y : ℚ) (ys : List ℚ)
    (hx : ¬x ≤ (y :: ys).getD (argminQ (y :: ys)) 0) :
    argminQ (x :: y :: ys) = argminQ (y :: ys) + 1 := by
  simp only [argminQ]
  rw [if_neg hx]

theorem argminQ_le : ∀ (l : List ℚ) (j : ℕ), j < l.length →
    l.getD (argminQ l) 0 ≤ l.getD j 0
  | [], j, hj => absurd hj (by simp)
  | [x], j, hj => by
    have : j = 0 := by simpa using hj
    subst this
    simp [argminQ]
  | x :: y :: ys, j, hj => by
    by_cases hx : x ≤ (y :: ys).getD (argminQ (y :: ys)) 0
    · rw [argminQ_cons_pos x y ys hx]
      cases j with
      | zero => exact le_refl _
      | succ k =>
        have hk : k < (y :: ys).length := by simpa using hj
        have ih := argminQ_le (y :: ys) k hk
        simp only [List.getD_cons_zero, List.getD_cons_succ]
        exact le_trans hx ih
    · rw [argminQ_cons_neg x y ys hx]
      push_neg at hx
      cases j with
      | zero =>
        simp only [List.getD_cons_succ, List.getD_cons_zero]
        exact le_of_lt hx
      | succ k =>
        have hk : k < (y :: ys).length := by simpa using hj
        simp only [List.getD_cons_succ]
        exact argminQ_le (y :: ys) k hk

theorem argminQ_first : ∀ (l : List ℚ) (j : ℕ), j < argminQ l →
    l.getD (argminQ l) 0 < l.getD j 0
  | [], j, hj => absurd hj (by simp [argminQ])
  | [_], j, hj => absurd hj (by simp [argminQ])
  | x :: y :: ys, j, hj => by
    by_cases hx : x ≤ (y :: ys).getD (argminQ (y :: ys)) 0
    · rw [argminQ_cons_pos x y ys hx] at hj
      exact absurd hj (by omega)
    · rw [argminQ_cons_neg x y ys hx] at hj ⊢
      push_neg at hx
      cases j with
      | zero =>
        simp only [List.getD_cons_succ, List.getD_cons_zero]
        exact hx
      | succ k =>
        have hk : k < argminQ (y :: ys) := by omega
        simp only [List.getD_cons_succ]
        exact argminQ_first (y :: ys) k hk

theorem argminFV_lt_length : ∀ (l : List FV), l ≠ [] → argminFV l < l.length
  | [], h => absurd rfl h
  | [_], _ => by simp [argminFV]
  | x :: y :: ys, _ => by
    have ih := argminFV_lt_length (y :: ys) (by simp)
    simp only [argminFV]
    split
    · simp
    · split
      · simp only [List.length_cons] at ih ⊢
        omega
      · split
        · simp
        · simp only [List.length_cons] at ih ⊢
          omega

theorem le_foldl_max : ∀ (xs : List ℚ) (a : ℚ), a ≤ xs.foldl max a
  | [], a => le_refl a
  | x :: xs, a => by
    rw [List.foldl_cons]
    exact le_trans (le_max_left a x) (le_foldl_max xs (max a x))

theorem mem_le_foldl_max : ∀ (xs : List ℚ) (a b : ℚ), b ∈ xs → b ≤ xs.foldl max a
  | [], _, _, hb => absurd hb (List.not_mem_nil _)
  | x :: xs, a, b, hb => by
    rw [List.foldl_cons]
    rcases List.mem_cons.mp hb with h | h
    · subst h
      exact le_trans (le_max_right a b) (le_foldl_max xs _)
    · exact mem_le_foldl_max xs _ b h

theorem foldl_max_le : ∀ (xs : List ℚ) (a c : ℚ), a ≤ c → (∀ b ∈ xs, b ≤ c) →
    xs.foldl max a ≤ c
  | [], _, _, ha, _ => ha
  | x :: xs, a, c, ha, hb => by
    rw [List.foldl_cons]
    exact foldl_max_le xs _ c (max_le ha (hb x (by simp))) (fun b h => hb b (by simp [h]))

theorem foldl_max_mem : ∀ (xs : List ℚ) (a : ℚ), xs.foldl max a = a ∨ xs.foldl max a ∈ xs
  | [], a => Or.inl rfl
  | x :: xs, a => by
    rw [List.foldl_cons]
    rcases foldl_max_mem xs (max a x) with h | h
    · rcases max_choice a x with hm | hm
      · exact Or.inl (h.trans hm)
      · exact Or.inr (by rw [h, hm]; simp)
    · exact Or.inr (by simp [h])

theorem foldl_fvMax_map_fin : ∀ (xs : List ℚ) (a : ℚ),
    (xs.map FV.fin).foldl fvMax (FV.fin a) = FV.fin (xs.foldl max a)
  | [], _ => rfl
  | x :: xs, a => by
    rw [List.map_cons, List.foldl_cons, List.foldl_cons]
    show (xs.map FV.fin).foldl fvMax (FV.fin (max a x)) = FV.fin (xs.foldl max (max a x))
    exact foldl_fvMax_map_fin xs (max a x)

theorem fvMaxL_map_fin : ∀ (s : List ℚ), s ≠ [] → fvMaxL (s.map FV.fin) = FV.fin (qMaxL s)
  | [], h => absurd rfl h
  | x :: xs, _ => by
    rw [List.map_cons]
    show (xs.map FV.fin).foldl fvMax (FV.fin x) = FV.fin (qMaxL (x :: xs))
    exact foldl_fvMax_map_fin xs x

theorem qMaxL_mem : ∀ (s : List ℚ), s ≠ [] → qMaxL s ∈ s
  | [], h => absurd rfl h
  | x :: xs, _ => by
    show xs.foldl max x ∈ x :: xs
    rcases foldl_max_mem xs x with h | h
    · simp [h]
    · simp [h]

theorem le_qMaxL : ∀ (s : List ℚ) (a : ℚ), a ∈ s → a ≤ qMaxL s
  | [], _, ha => absurd ha (List.not_mem_nil _)
  | x :: xs, a, ha => by
    show a ≤ xs.foldl max x
    rcases List.mem_cons.mp ha with h | h
    · subst h
      exact le_foldl_max xs a
    · exact mem_le_foldl_max xs x a h

theorem qMaxL_le : ∀ (l : List ℚ) (c : ℚ), l ≠ [] → (∀ b ∈ l, b ≤ c) → qMaxL l ≤ c
  | [], _, h, _ => absurd rfl h
  | x :: xs, c, _, hb => by
    show xs.foldl max x ≤ c
    exact foldl_max_le xs x c (hb x (by simp)) (fun b h => hb b (by simp [h]))

/-! ### The claims -/

section
attribute [local semireducible] Rat.add Rat.sub Rat.mul Rat.inv Rat.ofScientific

/-- Claim C1: for every grid and wavelength window, the pre-transform signal of
`plot_bleach` at time row `t` is the arithmetic mean of the intensities in the
closed-open column window `[lo, hi)`; on the spec's worked grid, `wls =
[500, 700]` resolves to column indices `[0, 2]` and the signal is
`[3/2, 9/2, 15/2]`. -/
theorem plot_bleach_signal_is_window_mean (d : TAData) (lo hi t : ℕ)
    (ht : t < d.intensities.length)
    (hne : ((d.intensities.getD t []).drop lo).take (hi - lo) ≠ []) :
    (windowSignal d lo hi).getD t FV.nan =
      FV.fin ((((d.intensities.getD t []).drop lo).take (hi - lo)).sum /
        (((d.intensities.getD t []).drop lo).take (hi - lo)).length)
    ∧ [nearestIdx exGrid.wavelengths 500, nearestIdx exGrid.wavelengths 700] = [0, 2]
    ∧ windowSignal exGrid 0 2 = [FV.fin (3/2), FV.fin (9/2), FV.fin (15/2)] := by
  refine ⟨?_, by decide, by decide⟩
  simp only [windowSignal]
  rw [getD_map _ d.intensities t ht [] FV.nan]
  simp only [meanFV]
  rw [if_neg hne]

/-- Witness for C1 at the spec's worked grid, row 0. -/
theorem plot_bleach_signal_is_window_mean_witness :
    (windowSignal exGrid 0 2).getD 0 FV.nan =
      FV.fin ((((exGrid.intensities.getD 0 []).drop 0).take (2 - 0)).sum /
        (((exGrid.intensities.getD 0 []).drop 0).take (2 - 0)).length)
    ∧ [nearestIdx exGrid.wavelengths 500, nearestIdx exGrid.wavelengths 700] = [0, 2]
    ∧ windowSignal exGrid 0 2 = [FV.fin (3/2), FV.fin (9/2), FV.fin (15/2)] :=
  plot_bleach_signal_is_window_mean exGrid 0 2 0 (by decide) (by decide)

/-- Claim C2 is false as stated: when the requested window resolves to the
first and last column indices, the slice `[0 : W-1]` is closed-open and
excludes the last column, so the computed signal differs from the mean over
*all* columns.  Concretely: wavelengths `[500, 600]`, one row `[1, 3]`; the
window `[500, 600]` resolves to `[0, 1]`, the signal is `[1]`, while the mean
over all columns is `2`. -/
theorem full_window_excludes_last_cex :
    nearestIdx cexGrid2.wavelengths 500 = 0
    ∧ nearestIdx cexGrid2.wavelengths 600 = cexGrid2.wavelengths.length - 1
    ∧ windowSignal cexGrid2 0 (cexGrid2.wavelengths.length - 1) = [FV.fin 1]
    ∧ meanFV (cexGrid2.intensities.getD 0 []) = FV.fin 2
    ∧ FV.fin (1 : ℚ) ≠ FV.fin 2 :=
  ⟨by decide, by decide, by decide, by decide, by decide⟩

/-- Claim C2 (amended): for a window resolving to the first and last column
indices, the pre-transform signal at each row is the mean over all wavelength
columns *except the last* (the hi index is excluded by the closed-open
slice). -/
theorem full_window_mean_drops_last (d : TAData) (t : ℕ)
    (ht : t < d.intensities.length) :
    (windowSignal d 0 (d.wavelengths.length - 1)).getD t FV.nan =
      meanFV ((d.intensities.getD t []).take (d.wavelengths.length - 1)) := by
  simp only [windowSignal]
  rw [getD_map _ d.intensities t ht [] FV.nan]
  rw [List.drop_zero, Nat.sub_zero]

/-- Witness for the amended C2 at the two-column grid. -/
theorem full_window_mean_drops_last_witness :
    (windowSignal cexGrid2 0 (cexGrid2.wavelengths.length - 1)).getD 0 FV.nan =
      meanFV ((cexGrid2.intensities.getD 0 []).take (cexGrid2.wavelengths.length - 1)) :=
  full_window_mean_drops_last cexGrid2 0 (by decide)

/-- Claim C3: the unit transform of `plot_bleach` is
`-2.28 * signal + constant` when `mOD` is false and `signal - constant` when
`mOD` is true (the constant is added in the first branch, subtracted in the
second); hence with `mOD = false` and `constant = 0` every transformed entry is
exactly `-2.28` times the raw window mean. -/
theorem bleach_transform_branches :
    (∀ (c : ℚ) (s : List FV), bleachTransform false c s
        = s.map (fun v => fvAdd (fvMul (FV.fin (-2.28)) v) (FV.fin c)))
    ∧ (∀ (c : ℚ) (s : List FV), bleachTransform true c s
        = s.map (fun v => fvSub v (FV.fin c)))
    ∧ (∀ s : List ℚ, bleachTransform false 0 (s.map FV.fin)
        = s.map (fun q => FV.fin ((-2.28) * q))) := by
  refine ⟨fun c s => rfl, fun c s => rfl, fun s => ?_⟩
  induction s with
  | nil => rfl
  | cons a s ih =>
    show fvAdd (fvMul (FV.fin (-2.28)) (FV.fin a)) (FV.fin 0) ::
        (s.map FV.fin).map (fun v => fvAdd (fvMul (FV.fin (-2.28)) v) (FV.fin 0))
      = FV.fin ((-2.28) * a) :: s.map (fun q => FV.fin ((-2.28) * q))
    rw [show fvAdd (fvMul (FV.fin (-2.28)) (FV.fin a)) (FV.fin 0)
          = FV.fin ((-2.28) * a + 0) from rfl, add_zero]
    exact congrArg (List.cons (FV.fin ((-2.28) * a))) ih

/-- Claim C6: nearest-match resolution (`argmin` of absolute differences, as in
`plot_spectrum` lines 34/36 and `plot_bleach` line 66) returns an in-range
index; it returns an exactly matching entry whenever the request is present in
the axis; the returned entry minimises the absolute distance; and every
earlier index has strictly larger distance, so ties resolve to the first
minimal index. -/
theorem nearest_match_exact_and_first_tie (axis : List ℚ) (x : ℚ)
    (hax : axis ≠ []) :
    nearestIdx axis x < axis.length
    ∧ (x ∈ axis → axis.getD (nearestIdx axis x) 0 = x)
    ∧ (∀ j, j < axis.length →
        |axis.getD (nearestIdx axis x) 0 - x| ≤ |axis.getD j 0 - x|)
    ∧ (∀ j, j < nearestIdx axis x →
        |axis.getD (nearestIdx axis x) 0 - x| < |axis.getD j 0 - x|) := by
  have hmapne : axis.map (fun a => |a - x|) ≠ [] := by simpa using hax
  have hmaplen : (axis.map (fun a => |a - x|)).length = axis.length :=
    List.length_map _ _
  have hfold : argminQ (axis.map (fun a => |a - x|)) = nearestIdx axis x := rfl
  have hlt : nearestIdx axis x < axis.length := by
    have h := argminQ_lt_length _ hmapne
    rw [hmaplen, hfold] at h
    exact h
  have hdist : ∀ j, j < axis.length →
      (axis.map (fun a => |a - x|)).getD j 0 = |axis.getD j 0 - x| := by
    intro j hj
    exact getD_map _ axis j hj 0 0
  refine ⟨hlt, ?_, ?_, ?_⟩
  · intro hx
    obtain ⟨k, hk, hgk⟩ := exists_getD_of_mem 0 axis x hx
    have h1 := argminQ_le (axis.map (fun a => |a - x|)) k (by rwa [hmaplen])
    rw [hfold, hdist k hk, hdist (nearestIdx axis x) hlt, hgk, sub_self, abs_zero] at h1
    have h0 : |axis.getD (nearestIdx axis x) 0 - x| = 0 :=
      le_antisymm h1 (abs_nonneg _)
    exact sub_eq_zero.mp (abs_eq_zero.mp h0)
  · intro j hj
    have h1 := argminQ_le (axis.map (fun a => |a - x|)) j (by rwa [hmaplen])
    rw [hfold, hdist j hj, hdist (nearestIdx axis x) hlt] at h1
    exact h1
  · intro j hj
    have hj' : j < argminQ (axis.map (fun a => |a - x|)) := by rwa [hfold]
    have h1 := argminQ_first (axis.map (fun a => |a - x|)) j hj'
    have hjlt : j < axis.length := lt_trans hj hlt
    rw [hfold, hdist j hjlt, hdist (nearestIdx axis x) hlt] at h1
    exact h1

/-- Witness for C6: on the worked axis, requesting an exactly present value
returns that value's entry. -/
theorem nearest_match_exact_and_first_tie_witness :
    ([500, 600, 700] : List ℚ).getD (nearestIdx [500, 600, 700] 600) 0 = 600 :=
  (nearest_match_exact_and_first_tie [500, 600, 700] 600 (by decide)).2.1 (by decide)

end

section
attribute [local semireducible] Rat.add Rat.sub Rat.mul Rat.inv Rat.ofScientific

/-- Claim C4: the truncation index of `plot_bleach` is the `argmin` of the
wavelength-averaged signal computed *before* the unit transform; with
`from_max = True` (and a well-defined minimum index, i.e. a nonempty grid) both
the timepoints and the transformed signal are truncated to start at that
index, and the returned timepoints start at `0`. -/
theorem plot_bleach_from_max_truncation (d : TAData) (wls : List ℚ)
    (mOD : Bool) (c : ℚ)
    (hw : d.wavelengths ≠ []) (hI : d.intensities ≠ [])
    (hlen : d.timepoints.length = d.intensities.length) :
    bleachIdx d wls = argminFV (windowSignal d (bleachLo d wls) (bleachHi d wls))
    ∧ plot_bleach d wls false mOD true c =
        some ((d.timepoints.drop (bleachIdx d wls)).map
                (fun t => t - d.timepoints.getD (bleachIdx d wls) 0),
              (bleachTransform mOD c (bleachRaw d wls)).drop (bleachIdx d wls))
    ∧ ((d.timepoints.drop (bleachIdx d wls)).map
        (fun t => t - d.timepoints.getD (bleachIdx d wls) 0)).getD 0 1 = 0 := by
  have hraw : bleachRaw d wls ≠ [] := by
    simp only [bleachRaw, windowSignal]
    simpa using hI
  have hlenraw : (bleachRaw d wls).length = d.intensities.length := by
    simp [bleachRaw, windowSignal]
  have hidx : bleachIdx d wls < d.timepoints.length := by
    have h := argminFV_lt_length (bleachRaw d wls) hraw
    have h2 : bleachIdx d wls < (bleachRaw d wls).length := h
    omega
  refine ⟨rfl, ?_, ?_⟩
  · simp only [plot_bleach]
    rw [if_neg hw, if_neg hraw,
      if_neg (show ¬(True ∧ d.timepoints.length ≤ bleachIdx d wls) from
        fun h => absurd h.2 (by omega)),
      if_neg (show ¬(false = true ∧ bleachPost d wls true mOD c = []) from
        fun h => absurd h.1 Bool.false_ne_true)]
    rw [if_neg Bool.false_ne_true]
    simp [bleachTimes, bleachPost]
  · have hdrop : 0 < (d.timepoints.drop (bleachIdx d wls)).length := by
      rw [List.length_drop]
      omega
    rw [getD_map _ _ 0 hdrop 0 1, getD_drop_head, sub_self]

/-- Witness for C4 at the spec's worked grid with `wls = [500, 700]`,
`mOD = false`, `constant = 0`. -/
theorem plot_bleach_from_max_truncation_witness :
    bleachIdx exGrid [500, 700]
      = argminFV (windowSignal exGrid (bleachLo exGrid [500, 700]) (bleachHi exGrid [500, 700]))
    ∧ plot_bleach exGrid [500, 700] false false true 0 =
        some ((exGrid.timepoints.drop (bleachIdx exGrid [500, 700])).map
                (fun t => t - exGrid.timepoints.getD (bleachIdx exGrid [500, 700]) 0),
              (bleachTransform false 0 (bleachRaw exGrid [500, 700])).drop
                (bleachIdx exGrid [500, 700]))
    ∧ ((exGrid.timepoints.drop (bleachIdx exGrid [500, 700])).map
        (fun t => t - exGrid.timepoints.getD (bleachIdx exGrid [500, 700]) 0)).getD 0 1 = 0 :=
  plot_bleach_from_max_truncation exGrid [500, 700] false 0 (by decide) (by decide) (by decide)

/-- Claim C5 is false as stated: with `normalise = True` and a *negative*
post-truncation maximum, dividing by the maximum does not leave a maximum of 1.
Concretely (grid `cexGrid5`, `mOD = true`, `constant = 5`, `from_max = true`):
the un-normalised signal is `[-4, -3]` with maximum `-3 ≠ 0`, and the
normalised signal is `[4/3, 1]` with maximum `4/3 ≠ 1`. -/
theorem normalise_negative_max_cex :
    plot_bleach cexGrid5 [500, 600] false true true 5
      = some ([0, 1], [FV.fin (-4), FV.fin (-3)])
    ∧ fvMaxL [FV.fin (-4), FV.fin (-3)] = FV.fin (-3)
    ∧ FV.fin (-3 : ℚ) ≠ FV.fin 0
    ∧ plot_bleach cexGrid5 [500, 600] true true true 5
      = some ([0, 1], [FV.fin (4/3), FV.fin 1])
    ∧ fvMaxL [FV.fin ((4 : ℚ)/3), FV.fin 1] = FV.fin (4/3)
    ∧ FV.fin ((4 : ℚ)/3) ≠ FV.fin 1 :=
  ⟨by decide, by decide, by decide, by decide, by decide, by decide⟩

/-- Claim C5 (amended): `plot_bleach` with `normalise = True` divides the
post-truncation signal by its own maximum; when that maximum is *positive* the
resulting maximum is exactly 1; when it is zero, every normalised entry is
`-inf` or NaN (no exception is raised); when it is negative the maximum of the
quotient need not be 1. -/
theorem normalise_step_max (s : List ℚ) (m : ℚ)
    (hm : fvMaxL (s.map FV.fin) = FV.fin m) :
    (0 < m → fvMaxL (normaliseStep (s.map FV.fin)) = FV.fin 1)
    ∧ (m = 0 → ∀ v ∈ normaliseStep (s.map FV.fin), v = FV.ninf ∨ v = FV.nan) := by
  have hs : s ≠ [] := by
    intro h
    subst h
    simp [fvMaxL] at hm
  have hq : m = qMaxL s := by
    rw [fvMaxL_map_fin s hs] at hm
    exact (FV.fin.inj hm).symm
  constructor
  · intro hpos
    have hmne : m ≠ 0 := ne_of_gt hpos
    have hfun : ((fun v => fvDiv v (FV.fin m)) ∘ FV.fin)
        = fun a : ℚ => FV.fin (a / m) := by
      funext a
      simp [fvDiv, hmne]
    have hrw : normaliseStep (s.map FV.fin) = (s.map (fun a => a / m)).map FV.fin := by
      simp only [normaliseStep, hm, List.map_map]
      rw [hfun]
      rfl
    have hmapne : s.map (fun a => a / m) ≠ [] := by simpa using hs
    rw [hrw, fvMaxL_map_fin _ hmapne]
    have hone : qMaxL (s.map (fun a => a / m)) = 1 := by
      apply le_antisymm
      · apply qMaxL_le _ _ hmapne
        intro b hb
        obtain ⟨a, ha, rfl⟩ := List.mem_map.mp hb
        rw [div_le_one hpos]
        exact hq ▸ le_qMaxL s a ha
      · have hmem : m ∈ s := hq ▸ qMaxL_mem s hs
        have h1 : (1 : ℚ) ∈ s.map (fun a => a / m) := by
          rw [← div_self hmne]
          exact List.mem_map_of_mem _ hmem
        exact le_qMaxL _ _ h1
    rw [hone]
  · intro h0 v hv
    simp only [normaliseStep, hm, h0] at hv
    obtain ⟨w, hw, rfl⟩ := List.mem_map.mp hv
    obtain ⟨a, ha, rfl⟩ := List.mem_map.mp hw
    have hle : a ≤ 0 := by
      have h1 := le_qMaxL s a ha
      rw [← hq, h0] at h1
      exact h1
    have hred : fvDiv (FV.fin a) (FV.fin 0)
        = if 0 < a then FV.pinf else if a < 0 then FV.ninf else FV.nan := by
      simp [fvDiv]
    rw [hred, if_neg (not_lt.mpr hle)]
    by_cases haz : a < 0
    · rw [if_pos haz]
      exact Or.inl rfl
    · rw [if_neg haz]
      exact Or.inr rfl

/-- Witness for the amended C5 on the signal `[1, 2]` with positive maximum 2. -/
theorem normalise_step_max_witness :
    fvMaxL (normaliseStep ([1, 2].map FV.fin)) = FV.fin 1 :=
  (normalise_step_max [1, 2] 2 (by decide)).1 (by decide)

/-- Claim C10 is false in its final part: with descending `wls` the resolved
indices are not swapped and the column slice is empty, but the per-row mean of
the empty window is NaN for each of the (nonempty) rows, `argmin` over the
all-NaN signal returns 0, and the call *completes* instead of failing. -/
theorem descending_window_call_succeeds_cex :
    [nearestIdx exGrid.wavelengths 700, nearestIdx exGrid.wavelengths 500] = [2, 0]
    ∧ bleachRaw exGrid [700, 500] = [FV.nan, FV.nan, FV.nan]
    ∧ plot_bleach exGrid [700, 500] false false true 0
        = some ([0, 1, 2], [FV.nan, FV.nan, FV.nan]) :=
  ⟨by decide, by decide, by decide⟩

/-- Claim C10 (amended): `plot_bleach` never swaps the resolved window indices;
whenever the second resolved index is at most the first, the column slice is
empty, the pre-transform signal is NaN at every time row, the `argmin` over
that (nonempty) all-NaN signal is 0, and the call completes successfully. -/
theorem descending_window_nan_completes (d : TAData) (wls : List ℚ)
    (hw : d.wavelengths ≠ []) (hI : d.intensities ≠ [])
    (hlen : d.timepoints.length = d.intensities.length)
    (hle : bleachHi d wls ≤ bleachLo d wls) :
    bleachRaw d wls = d.intensities.map (fun _ => FV.nan)
    ∧ bleachIdx d wls = 0
    ∧ (plot_bleach d wls false false true 0).isSome = true := by
  have hsub : bleachHi d wls - bleachLo d wls = 0 := Nat.sub_eq_zero_of_le hle
  have hraw : bleachRaw d wls = d.intensities.map (fun _ => FV.nan) := by
    simp only [bleachRaw, windowSignal, hsub]
    simp [meanFV]
  have hidx : bleachIdx d wls = 0 := by
    show argminFV (bleachRaw d wls) = 0
    rw [hraw]
    rcases hEq : d.intensities with _ | ⟨r, rs⟩
    · exact absurd hEq hI
    · cases rs with
      | nil => rfl
      | cons r2 rs2 => simp [argminFV, fvIsNan]
  have hrawne : bleachRaw d wls ≠ [] := by
    rw [hraw]
    simpa using hI
  have htpne : ¬d.timepoints.length ≤ bleachIdx d wls := by
    rw [hidx]
    intro h
    have h0 : d.intensities.length = 0 := by omega
    exact hI (List.length_eq_zero.mp h0)
  refine ⟨hraw, hidx, ?_⟩
  simp only [plot_bleach]
  rw [if_neg hw, if_neg hrawne,
    if_neg (show ¬(True ∧ d.timepoints.length ≤ bleachIdx d wls) from
      fun h => absurd h.2 htpne),
    if_neg (show ¬(false = true ∧ bleachPost d wls true false 0 = []) from
      fun h => absurd h.1 Bool.false_ne_true)]
  rfl

/-- Witness for the amended C10 at the worked grid with descending
`wls = [700, 500]`. -/
theorem descending_window_nan_completes_witness :
    bleachRaw exGrid [700, 500] = exGrid.intensities.map (fun _ => FV.nan)
    ∧ bleachIdx exGrid [700, 500] = 0
    ∧ (plot_bleach exGrid [700, 500] false false true 0).isSome = true :=
  descending_window_nan_completes exGrid [700, 500]
    (by decide) (by decide) (by decide) (by decide)

end

section
attribute [local semireducible] Rat.add Rat.sub Rat.mul Rat.inv Rat.ofScientific

/-- Claim C7 is false in its non-numeric part: `np.genfromtxt` stores NaN for
an unparseable cell instead of raising, so `load_TA` succeeds on a four-line
file whose fourth line has a non-numeric first cell, returning arrays with a
NaN timepoint. -/
theorem load_TA_nonnumeric_cell_loads_cex :
    load_TA cexFile7 = some ([FV.fin 500], [FV.nan], [[FV.fin 1]]) := by decide

/-- Claim C7 (amended): `load_TA` fails on files with fewer than 3 lines and on
ragged data rows; non-numeric cells outside the two skipped header lines parse
as NaN and do not cause a failure; and on success the intensity matrix has one
row per timepoint and one column per wavelength. -/
theorem load_TA_failure_and_shape (file : List (List FV)) :
    (file.length < 3 → load_TA file = none)
    ∧ (∀ r0 rest, file.drop 2 = r0 :: rest →
        ((r0 :: rest).all (fun r => r.length == r0.length)) = false → load_TA file = none)
    ∧ (∀ w t ints, load_TA file = some (w, t, ints) →
        ints.length = t.length ∧ ∀ r ∈ ints, r.length = w.length) := by
  refine ⟨?_, ?_, ?_⟩
  · intro hlt
    have hdrop : file.drop 2 = [] :=
      List.length_eq_zero.mp (by rw [List.length_drop]; omega)
    simp only [load_TA, hdrop]
  · intro r0 rest hdrop hall
    simp only [load_TA, hdrop]
    cases rest with
    | nil => simp at hall
    | cons r1 rest2 => simp [hall]
  · intro w t ints hsome
    rcases hdrop : file.drop 2 with _ | ⟨r0, rest⟩
    · rw [load_TA, hdrop] at hsome
      exact absurd hsome (by simp)
    · cases rest with
      | nil =>
        rw [load_TA, hdrop] at hsome
        exact absurd hsome (by simp)
      | cons r1 rest2 =>
        have hred : load_TA file
            = if ((r0 :: r1 :: rest2).all (fun r => r.length == r0.length)) = true then
                some (r0.drop 1, (r1 :: rest2).map (fun r => r.getD 0 FV.nan),
                      (r1 :: rest2).map (fun r => r.drop 1))
              else none := by
          rw [load_TA, hdrop]
        rw [hred] at hsome
        by_cases hall : (r0 :: r1 :: rest2).all (fun r => r.length == r0.length) = true
        · rw [if_pos hall] at hsome
          simp only [Option.some.injEq, Prod.mk.injEq] at hsome
          obtain ⟨hw, ht, hints⟩ := hsome
          subst hw
          subst ht
          subst hints
          constructor
          · simp
          · intro r hr
            obtain ⟨rr, hrr, rfl⟩ := List.mem_map.mp hr
            have hall' := List.all_eq_true.mp hall
            have h1 : rr.length = r0.length := by
              have h2 := hall' rr (List.mem_cons_of_mem _ hrr)
              simpa using h2
            simp [h1]
        · rw [if_neg hall] at hsome
          exact absurd hsome (by simp)

/-- Witness for the amended C7: a two-line file fails to load. -/
theorem load_TA_failure_and_shape_witness :
    load_TA ([[], []] : List (List FV)) = none :=
  (load_TA_failure_and_shape [[], []]).1 (by decide)

/-- Claim C8 is false in its final parts: on a log with zero matching lines the
value array is empty, so the deviation list is the *empty* list (not NaNs), and
`np.percentile` raises an `IndexError` on it — the call fails rather than
producing NaN percentiles without raising. -/
theorem empty_pump_log_raises_cex :
    pumpValues [("noise").toList] = []
    ∧ extract_pump_values [("noise").toList] = none :=
  ⟨by decide, by decide⟩

/-- Claim C8 (amended): for a pump log with zero matching lines, the extracted
values are empty, the mean of the empty array is NaN, the deviation list is
empty, and the percentile computation over the empty list raises, so the call
fails. -/
theorem empty_pump_log_behaviour (lines : List (List Char))
    (h : pumpValues lines = []) :
    meanFV (pumpValues lines) = FV.nan
    ∧ pumpDeviations (pumpValues lines) = []
    ∧ extract_pump_values lines = none := by
  refine ⟨by rw [h]; rfl, by rw [h]; rfl, ?_⟩
  simp only [extract_pump_values, pumpDeviations, h]
  rfl

/-- Witness for the amended C8 on the log `["noise"]`. -/
theorem empty_pump_log_behaviour_witness :
    meanFV (pumpValues [("noise").toList]) = FV.nan
    ∧ pumpDeviations (pumpValues [("noise").toList]) = []
    ∧ extract_pump_values [("noise").toList] = none :=
  empty_pump_log_behaviour [("noise").toList] (by decide)

/-- Claim C9: `extract_pump_values` collects one float per regex-matching line
in file order, skipping other lines, and each percentage deviation is
`(mean - value) / mean * 100`; on the log `"Pump=1.0e+00"`, `"Pump=2.0e+00"`,
`"noise"` the values are `[1, 2]`, the mean is `3/2`, and the deviations are
`[100/3, -100/3]`. -/
theorem pump_values_and_deviations :
    (∀ vs : List ℚ, pumpDeviations vs =
      vs.map (fun v => fvMul (fvDiv (fvSub (meanFV vs) (FV.fin v)) (meanFV vs)) (FV.fin 100)))
    ∧ pumpValues [("Pump=1.0e+00").toList, ("Pump=2.0e+00").toList, ("noise").toList] = [1, 2]
    ∧ meanFV [1, 2] = FV.fin (3/2)
    ∧ pumpDeviations [1, 2] = [FV.fin (100/3), FV.fin (-100/3)] :=
  ⟨fun vs => rfl, by decide, by decide, by decide⟩

end
